import Mathlib

/-!
Shallow embedding of `wright.py`, a Wright-System single transferable vote
counting engine, together with proofs about the claims of its specification.

Python floats are modelled as exact rationals, the `candidates` dict as an
insertion-ordered association list of `Candidate` records, and the `votes`
set as a list of `Vote` records.  Mutable `Vote` objects shared between
candidate vote sets are modelled by a central vote store (the election's
`votes` list); candidate vote sets hold vote ids referencing that store.
The one nondeterministic step, `random.choice` in the exclusion of
candidates, is modelled by an explicit index parameter.
-/

abbrev CName := String

/-- A ballot: an id, the remaining ranked preference list (most preferred
first) and the current fractional value of the vote (`Vote` in wright.py,
value initialised to 1.0 in `Vote.__init__`). -/
structure Vote where
  id : Nat
  preference : List CName
  value : ℚ
deriving DecidableEq, Repr

/-- A candidate: its name, the ids of the votes currently allocated to it
and the candidate's total value of votes (`Candidate` in wright.py). -/
structure Candidate where
  name : CName
  votes : List Nat
  total_value : ℚ
deriving DecidableEq, Repr

/-- `Candidate.alloc_vote`: add the vote's value to `total_value` and the
vote to the allocation set (a Python set: adding an already present vote
leaves the set unchanged, but the value is added unconditionally). -/
def Candidate.alloc_vote (c : Candidate) (v : Vote) : Candidate :=
  { c with
    total_value := c.total_value + v.value,
    votes := if v.id ∈ c.votes then c.votes else c.votes ++ [v.id] }

/-- Python's `max` over candidates with only the reversed
`Candidate.__lt__` (`other.total_value < self.total_value`) defined:
`max` keeps the current best and replaces it exactly when the next
item compares greater, i.e. when its `total_value` is strictly smaller. -/
def pyMaxAux (b : Candidate) (l : List Candidate) : Candidate :=
  l.foldl (fun best x => if x.total_value < best.total_value then x else best) b

/-- `max(iterable)` over candidates; `none` models the `ValueError` on an
empty iterable (never reached: the call is guarded by
`check_if_candidates_surplus`). -/
def pyMax : List Candidate → Option Candidate
  | [] => none
  | c :: cs => some (pyMaxAux c cs)

/-- `Vote.get_preference`: the first remaining preference, if any. -/
def Vote.get_preference (v : Vote) : Option CName :=
  v.preference.head?

/-- `Vote.get_preference_excluding`: the first preference not in the
excluding collection, if any. -/
def Vote.get_preference_excluding (v : Vote) (excluding : List CName) : Option CName :=
  v.preference.find? (fun n => decide (n ∉ excluding))

/-- The state of the election engine (`WrightSystem` in wright.py).
`total_votes` and `quota` are 0 before the first distribution of
preferences (in Python the attributes do not exist yet and are never read
before being set). -/
structure WrightSystem where
  vacancies : Nat
  provisional_winners : List CName
  candidates : List Candidate
  votes : List Vote
  total_votes : ℚ
  quota : ℚ
deriving DecidableEq, Repr

/-- Allocate a vote to every candidate of the pool named `n` (the dict
guarantees there is at most one). -/
def allocTo (cs : List Candidate) (n : CName) (v : Vote) : List Candidate :=
  cs.map (fun c => if c.name = n then c.alloc_vote v else c)

/-- One iteration of the distribution loop: allocate the vote to its
current first preference. -/
def distAlloc (cs : List Candidate) (v : Vote) : List Candidate :=
  match v.get_preference with
  | some n => allocTo cs n v
  | none => cs

/-- The distribution loop over the active votes. -/
def distFold (vs : List Vote) (cs : List Candidate) : List Candidate :=
  vs.foldl distAlloc cs

/-- Sum of the values of a list of votes. -/
def sumValues (vs : List Vote) : ℚ :=
  (vs.map (fun v => v.value)).sum

/-- Sum of `total_value` over a list of candidates. -/
def sumTotals (cs : List Candidate) : ℚ :=
  (cs.map (fun c => c.total_value)).sum

/-- `WrightSystem.distribution_of_preferences`: reset all totals and
allocations, drop exhausted-without-value votes, give every remaining vote
value 1, allocate it to its first preference, recompute `total_votes`,
the quota `floor(total_votes/(1+vacancies)) + 1` and the provisional
winners. -/
def WrightSystem.distribution_of_preferences (s : WrightSystem) : WrightSystem :=
  let cands0 := s.candidates.map (fun c => { c with total_value := 0, votes := [] })
  let votes1 := (s.votes.filter (fun v => !v.preference.isEmpty)).map
      (fun v => { v with value := 1 })
  let cands1 := distFold votes1 cands0
  let total := sumValues votes1
  let quota : ℚ := ((⌊total / (1 + (s.vacancies : ℚ))⌋ : ℤ) : ℚ) + 1
  { s with
    candidates := cands1,
    votes := votes1,
    total_votes := total,
    quota := quota,
    provisional_winners :=
      (cands1.filter (fun c => decide (quota ≤ c.total_value))).map (fun c => c.name) }

/-- `WrightSystem.check_all_vacancies_filled`. -/
def WrightSystem.check_all_vacancies_filled (s : WrightSystem) : Bool :=
  s.candidates.length ≤ s.vacancies || s.vacancies ≤ s.provisional_winners.length

/-- `WrightSystem.get_winners`; `none` models the raised exception. -/
def WrightSystem.get_winners (s : WrightSystem) : Option (List CName) :=
  if s.candidates.length ≤ s.vacancies then some (s.candidates.map (fun c => c.name))
  else if s.vacancies ≤ s.provisional_winners.length then some s.provisional_winners
  else none

/-- `WrightSystem.check_if_candidates_surplus`. -/
def WrightSystem.check_if_candidates_surplus (s : WrightSystem) : Bool :=
  s.candidates.any (fun c => decide (s.quota < c.total_value))

/-- The candidate selected for surplus distribution:
`max(c for c in candidates.values() if c.total_value > quota)` under the
reversed `Candidate.__lt__`. -/
def WrightSystem.surplus_selection (s : WrightSystem) : Option Candidate :=
  pyMax (s.candidates.filter (fun c => decide (s.quota < c.total_value)))

/-- Look a vote up in the central store by id. -/
def lookupVote (vs : List Vote) (id : Nat) : Option Vote :=
  vs.find? (fun v => decide (v.id = id))

/-- The value of the vote with the given id in the store (0 if absent). -/
def lookupValue (vs : List Vote) (id : Nat) : ℚ :=
  ((lookupVote vs id).map (fun v => v.value)).getD 0

/-- Sum of the stored values of the votes with the given ids. -/
def voteValueSum (store : List Vote) (ids : List Nat) : ℚ :=
  (ids.map (fun id => lookupValue store id)).sum

/-- Scale the value of the vote with the given id by `r` (`vote.value *=
surplus_transfer_value` on the shared vote object). -/
def scaleVote (vs : List Vote) (id : Nat) (r : ℚ) : List Vote :=
  vs.map (fun v => if v.id = id then { v with value := v.value * r } else v)

/-- One iteration of the surplus transfer loop: scale the vote's value by
the surplus transfer value, find its next preference excluding the current
provisional winners, and allocate it there unless it is
exhausted-with-value. -/
def surplusStepFun (excluding : List CName) (stv : ℚ)
    (st : List Vote × List Candidate) (id : Nat) : List Vote × List Candidate :=
  match lookupVote st.1 id with
  | none => st
  | some v =>
    let v' := { v with value := v.value * stv }
    let store' := scaleVote st.1 id stv
    match v'.get_preference_excluding excluding with
    | none => (store', st.2)
    | some n => (store', allocTo st.2 n v')

/-- `WrightSystem.calc_and_distribute_surplus`: pick the `max` of the
candidates with surplus, transfer the scaled-down votes to their next
preferences (excluding provisional winners), clamp the source candidate's
`total_value` to the quota and recompute the provisional winners. -/
def WrightSystem.calc_and_distribute_surplus (s : WrightSystem) : WrightSystem :=
  match s.surplus_selection with
  | none => s
  | some cand =>
    let stv := (cand.total_value - s.quota) / cand.total_value
    let res := cand.votes.foldl (surplusStepFun s.provisional_winners stv)
        (s.votes, s.candidates)
    let cands2 := res.2.map
        (fun c => if c.name = cand.name then { c with total_value := s.quota } else c)
    { s with
      votes := res.1,
      candidates := cands2,
      provisional_winners :=
        (cands2.filter (fun c => decide (s.quota ≤ c.total_value))).map (fun c => c.name) }

/-- Minimum `total_value` of a nonempty candidate list (0 for the empty
list, never reached: models `min(c.total_value for c in ...)`). -/
def minTotal : List Candidate → ℚ
  | [] => 0
  | c :: cs => cs.foldl (fun m x => min m x.total_value) c.total_value

/-- Placeholder candidate used as the irrelevant default of a guarded
list index. -/
def defaultCandidate : Candidate := ⟨"", [], 0⟩

/-- The candidate excluded by `exclusion_of_candidates` when the drawing
of lots picks index `k`: the `k % n`-th of the candidates tied at the
minimal `total_value`. -/
def WrightSystem.excludedOf (s : WrightSystem) (k : Nat) : Candidate :=
  let m := minTotal s.candidates
  let minimum_votes := s.candidates.filter (fun c => decide (c.total_value = m))
  minimum_votes.getD (k % minimum_votes.length) defaultCandidate

/-- `WrightSystem.exclusion_of_candidates`: choose (by lot, here the
index `k`) a candidate with minimal `total_value`, remove it from every
vote's preference list (`list.remove`: the first occurrence only) and
delete it from the candidate pool.  The empty-pool guard models the
`ValueError` Python would raise there; `elect` never reaches it. -/
def WrightSystem.exclusion_of_candidates (s : WrightSystem) (k : Nat) : WrightSystem :=
  if s.candidates.isEmpty then s
  else
    let excluded := s.excludedOf k
    { s with
      votes := s.votes.map (fun v => { v with preference := v.preference.erase excluded.name }),
      candidates := s.candidates.eraseP (fun c => decide (c.name = excluded.name)) }

/-- The inner surplus loop of `WrightSystem.elect`: repeat
`calc_and_distribute_surplus` while some candidate exceeds the quota,
returning early once all vacancies are filled.  `none` models running out
of fuel (shown never to happen from reachable entry states). -/
def WrightSystem.surplusLoop : Nat → WrightSystem → Option WrightSystem
  | 0, s => if s.check_if_candidates_surplus then none else some s
  | fuel + 1, s =>
    if s.check_if_candidates_surplus then
      let s' := s.calc_and_distribute_surplus
      if s'.check_all_vacancies_filled then some s'
      else WrightSystem.surplusLoop fuel s'
    else some s

/-- `WrightSystem.elect`, with the number of remaining rounds as fuel and
`rand` supplying the lot-drawing outcome of each round's exclusion:
while the vacancies are not filled, run a distribution of preferences,
the surplus loop and an exclusion.  Returning `some` means the election
reached a terminal state within `fuel` rounds. -/
def WrightSystem.electFuel (rand : Nat → Nat) : Nat → WrightSystem → Option WrightSystem
  | 0, s => if s.check_all_vacancies_filled then some s else none
  | fuel + 1, s =>
    if s.check_all_vacancies_filled then some s
    else
      let s1 := s.distribution_of_preferences
      if s1.check_all_vacancies_filled then some s1
      else
        match s1.surplusLoop (s1.candidates.length + 1) with
        | none => none
        | some s2 =>
          if s2.check_all_vacancies_filled then some s2
          else WrightSystem.electFuel rand fuel (s2.exclusion_of_candidates (rand fuel))

/-- The surplus transfer value `surplus / candidate.total_value` of the
candidate whose surplus is being distributed. -/
def surplusSTV (s : WrightSystem) (cand : Candidate) : ℚ :=
  (cand.total_value - s.quota) / cand.total_value

/-- The provisional winners are exactly the candidates whose
`total_value` reaches the quota, as of the most recent recomputation.
Established by `distribution_of_preferences` and maintained by
`calc_and_distribute_surplus`. -/
def winnersInv (s : WrightSystem) : Prop :=
  s.provisional_winners =
    (s.candidates.filter (fun c => decide (s.quota ≤ c.total_value))).map (fun c => c.name)

/-- Number of candidates whose `total_value` differs from the quota; the
strictly decreasing measure of the surplus distribution loop. -/
def offQuota (s : WrightSystem) : Nat :=
  s.candidates.countP (fun c => decide (¬ c.total_value = s.quota))

/-- Every name occurring in a vote's preference list denotes a live
candidate.  Guaranteed by construction for ballots that do not list the
same candidate twice; the remove-first-occurrence behaviour of exclusion
preserves it exactly for duplicate-free preference lists. -/
def closedPrefs (s : WrightSystem) : Prop :=
  ∀ v ∈ s.votes, ∀ n ∈ v.preference, n ∈ s.candidates.map (fun c => c.name)

/-- `WrightSystem.add_candidate` applied along all ballots: the candidate
names in order of first appearance. -/
def collectNames (ballots : List (Nat × List CName)) : List CName :=
  ballots.foldl (fun a b => b.2.foldl (fun a' n => if n ∈ a' then a' else a' ++ [n]) a) []

/-- The state built by `WrightSystem.__init__` before `elect` runs:
candidates created lazily in order of first appearance, one vote per
ballot with value 1. -/
def initState (vacancies : Nat) (ballots : List (Nat × List CName)) : WrightSystem :=
  { vacancies := vacancies,
    provisional_winners := [],
    candidates := (collectNames ballots).map (fun n => ⟨n, [], 0⟩),
    votes := ballots.map (fun b => ⟨b.1, b.2, 1⟩),
    total_votes := 0,
    quota := 0 }

/-- Ballots of a 3-vacancy election in which two candidates exceed the
quota after the first distribution: first preferences A x 10, B x 8,
C x 1, D x 1 (total 20, quota 6, provisional winners A and B). -/
def ballotsTwoSurplus : List (Nat × List CName) :=
  [(1, ["A"]), (2, ["A"]), (3, ["A"]), (4, ["A"]), (5, ["A"]),
   (6, ["A"]), (7, ["A"]), (8, ["A"]), (9, ["A"]), (10, ["A"]),
   (11, ["B"]), (12, ["B"]), (13, ["B"]), (14, ["B"]), (15, ["B"]),
   (16, ["B"]), (17, ["B"]), (18, ["B"]),
   (19, ["C"]), (20, ["D"])]

/-- The two-surplus election right after its first distribution of
preferences. -/
def stateTwoSurplus : WrightSystem :=
  (initState 3 ballotsTwoSurplus).distribution_of_preferences

/-- Ballots of a 1-vacancy election whose first ballot ranks candidate A
twice: A 1, B 2, C 2 first preferences (total 5, quota 3, no winner and
no surplus, so the round proceeds to exclusion, where A polls last). -/
def ballotsDupPref : List (Nat × List CName) :=
  [(1, ["A", "B", "A"]), (2, ["B"]), (3, ["C"]), (4, ["C"]), (5, ["B"])]

/-- The duplicate-preference election right after its first distribution
of preferences, the state on which the round's exclusion step runs. -/
def stateDupPref : WrightSystem :=
  (initState 1 ballotsDupPref).distribution_of_preferences

/-- Ballots of a 2-vacancy election with one surplus: ballots 1-5 rank
A then B, ballot 6 ranks only C (total 6, quota 3, A polls 5 > 3). -/
def ballotsOneSurplus : List (Nat × List CName) :=
  [(1, ["A", "B"]), (2, ["A", "B"]), (3, ["A", "B"]), (4, ["A", "B"]),
   (5, ["A", "B"]), (6, ["C"])]

/-- The one-surplus election right after its first distribution of
preferences (A's surplus of 2 is about to be distributed at transfer
value 2/5). -/
def stateOneSurplus : WrightSystem :=
  (initState 2 ballotsOneSurplus).distribution_of_preferences

/-- Candidate A as it stands in `stateOneSurplus`: 5 allocated votes of
value 1 each. -/
def candA : Candidate := ⟨"A", [1, 2, 3, 4, 5], 5⟩

/-- Ballots of the seed test scenario of the specification: 3 candidates,
1 vacancy, ballots A, A, B, B, C. -/
def ballotsSeed : List (Nat × List CName) :=
  [(1, ["A"]), (2, ["A"]), (3, ["B"]), (4, ["B"]), (5, ["C"])]

/-! ### Generic list lemmas -/

theorem countP_lt_of_strict {α : Type} (p q : α → Bool) :
    ∀ l : List α, (∀ a ∈ l, q a = true → p a = true) →
      ∀ a ∈ l, p a = true → q a = false → l.countP q < l.countP p := by
  intro l
  induction l with
  | nil => intro _ a ha; exact absurd ha (List.not_mem_nil a)
  | cons x xs ih =>
    intro hpq a ha hpa hqa
    have hmono : xs.countP q ≤ xs.countP p :=
      List.countP_mono_left (fun b hb => hpq b (List.mem_cons_of_mem _ hb))
    rcases List.mem_cons.mp ha with rfl | ha'
    · simp [List.countP_cons, hpa, hqa]
      omega
    · have hlt := ih (fun b hb => hpq b (List.mem_cons_of_mem _ hb)) a ha' hpa hqa
      by_cases hqx : q x = true
      · have hpx := hpq x (List.mem_cons_self x xs) hqx
        simp [List.countP_cons, hpx, hqx]
        omega
      · simp only [Bool.not_eq_true] at hqx
        by_cases hpx : p x = true <;> simp [List.countP_cons, hqx, hpx] <;> omega

theorem pyMaxAux_cons (b x : Candidate) (xs : List Candidate) :
    pyMaxAux b (x :: xs) = pyMaxAux (if x.total_value < b.total_value then x else b) xs := rfl

theorem pyMaxAux_mem : ∀ (l : List Candidate) (b : Candidate), pyMaxAux b l ∈ b :: l := by
  intro l
  induction l with
  | nil => intro b; simp [pyMaxAux]
  | cons x xs ih =>
    intro b
    rw [pyMaxAux_cons]
    rcases List.mem_cons.mp (ih (if x.total_value < b.total_value then x else b)) with h1 | h1
    · rw [h1]
      by_cases hx : x.total_value < b.total_value <;> simp [hx]
    · simp [List.mem_cons, h1]

theorem pyMaxAux_le : ∀ (l : List Candidate) (b : Candidate),
    ∀ x ∈ b :: l, (pyMaxAux b l).total_value ≤ x.total_value := by
  intro l
  induction l with
  | nil =>
    intro b x hx
    rcases List.mem_cons.mp hx with rfl | h
    · exact le_refl _
    · exact absurd h (List.not_mem_nil x)
  | cons y ys ih =>
    intro b x hx
    rw [pyMaxAux_cons]
    have hb' : (if y.total_value < b.total_value then y else b).total_value ≤ b.total_value := by
      by_cases hy : y.total_value < b.total_value <;> simp [hy]
      exact le_of_lt hy
    have hy' : (if y.total_value < b.total_value then y else b).total_value ≤ y.total_value := by
      by_cases hy : y.total_value < b.total_value <;> simp [hy]
      exact le_of_not_lt hy
    have hhead := ih (if y.total_value < b.total_value then y else b)
      (if y.total_value < b.total_value then y else b) (List.mem_cons_self _ _)
    rcases List.mem_cons.mp hx with rfl | h1
    · exact le_trans hhead hb'
    · rcases List.mem_cons.mp h1 with rfl | h2
      · exact le_trans hhead hy'
      · exact ih _ x (List.mem_cons_of_mem _ h2)

/-! ### Allocation and distribution lemmas -/

theorem alloc_vote_name (c : Candidate) (v : Vote) : (c.alloc_vote v).name = c.name := rfl

theorem allocTo_names (cs : List Candidate) (n : CName) (v : Vote) :
    (allocTo cs n v).map (fun c => c.name) = cs.map (fun c => c.name) := by
  unfold allocTo
  rw [List.map_map]
  apply List.map_congr_left
  intro c _
  by_cases h : c.name = n <;> simp [h, Candidate.alloc_vote]

theorem allocTo_length (cs : List Candidate) (n : CName) (v : Vote) :
    (allocTo cs n v).length = cs.length := by
  simp [allocTo]

theorem allocTo_of_not_mem (cs : List Candidate) (n : CName) (v : Vote)
    (h : n ∉ cs.map (fun c => c.name)) : allocTo cs n v = cs := by
  unfold allocTo
  have : ∀ c ∈ cs, (if c.name = n then c.alloc_vote v else c) = c := by
    intro c hc
    have : c.name ≠ n := fun e => h (e ▸ List.mem_map_of_mem (fun c => c.name) hc)
    simp [this]
  rw [List.map_congr_left this]
  simp

theorem distAlloc_names (cs : List Candidate) (v : Vote) :
    (distAlloc cs v).map (fun c => c.name) = cs.map (fun c => c.name) := by
  unfold distAlloc
  cases v.get_preference <;> simp [allocTo_names]

theorem distFold_names : ∀ (vs : List Vote) (cs : List Candidate),
    (distFold vs cs).map (fun c => c.name) = cs.map (fun c => c.name) := by
  intro vs
  induction vs with
  | nil => intro cs; rfl
  | cons v vs ih =>
    intro cs
    show (distFold vs (distAlloc cs v)).map _ = _
    rw [ih, distAlloc_names]

theorem distFold_length (vs : List Vote) (cs : List Candidate) :
    (distFold vs cs).length = cs.length := by
  have h := distFold_names vs cs
  have h1 := congrArg List.length h
  simpa using h1

/-! ### Surplus distribution lemmas -/

theorem surplusStepFun_none (excluding : List CName) (stv : ℚ)
    (st : List Vote × List Candidate) (id : Nat) (h : lookupVote st.1 id = none) :
    surplusStepFun excluding stv st id = st := by
  simp [surplusStepFun, h]

theorem surplusStepFun_exhausted (excluding : List CName) (stv : ℚ)
    (st : List Vote × List Candidate) (id : Nat) (v : Vote)
    (h : lookupVote st.1 id = some v)
    (h2 : Vote.get_preference_excluding { v with value := v.value * stv } excluding = none) :
    surplusStepFun excluding stv st id = (scaleVote st.1 id stv, st.2) := by
  simp [surplusStepFun, h, h2]

theorem surplusStepFun_alloc (excluding : List CName) (stv : ℚ)
    (st : List Vote × List Candidate) (id : Nat) (v : Vote) (n : CName)
    (h : lookupVote st.1 id = some v)
    (h2 : Vote.get_preference_excluding { v with value := v.value * stv } excluding = some n) :
    surplusStepFun excluding stv st id =
      (scaleVote st.1 id stv, allocTo st.2 n { v with value := v.value * stv }) := by
  simp [surplusStepFun, h, h2]

theorem get_preference_excluding_not_mem (v : Vote) (excluding : List CName) (n : CName)
    (h : v.get_preference_excluding excluding = some n) : n ∉ excluding := by
  have := List.find?_some h
  exact of_decide_eq_true this

theorem surplusFold_snd_eq_map (excluding : List CName) (stv : ℚ) :
    ∀ (ids : List Nat) (store : List Vote) (cs : List Candidate),
    ∃ G : Candidate → Candidate,
      (ids.foldl (surplusStepFun excluding stv) (store, cs)).2 = cs.map G ∧
      ∀ c, (G c).name = c.name ∧ (c.name ∈ excluding → G c = c) := by
  intro ids
  induction ids with
  | nil =>
    intro store cs
    exact ⟨fun c => c, by simp, fun c => ⟨rfl, fun _ => rfl⟩⟩
  | cons i is ih =>
    intro store cs
    rw [List.foldl_cons]
    cases h : lookupVote store i with
    | none =>
      rw [surplusStepFun_none excluding stv (store, cs) i h]
      exact ih store cs
    | some v =>
      cases h2 : Vote.get_preference_excluding { v with value := v.value * stv } excluding with
      | none =>
        rw [surplusStepFun_exhausted excluding stv (store, cs) i v h h2]
        exact ih (scaleVote store i stv) cs
      | some n =>
        rw [surplusStepFun_alloc excluding stv (store, cs) i v n h h2]
        have hn : n ∉ excluding :=
          get_preference_excluding_not_mem { v with value := v.value * stv } excluding n h2
        obtain ⟨G0, hG0, hprop⟩ :=
          ih (scaleVote store i stv) (allocTo cs n { v with value := v.value * stv })
        refine ⟨fun c => G0 (if c.name = n
          then c.alloc_vote { v with value := v.value * stv } else c), ?_, ?_⟩
        · rw [hG0]
          unfold allocTo
          rw [List.map_map]
          rfl
        · intro c
          dsimp only
          constructor
          · by_cases hc : c.name = n
            · rw [if_pos hc, (hprop _).1, alloc_vote_name]
            · rw [if_neg hc]
              exact (hprop c).1
          · intro hcw
            have hcn : c.name ≠ n := fun e => hn (e ▸ hcw)
            rw [if_neg hcn]
            exact (hprop c).2 hcw

theorem scaleVote_of_absent (store : List Vote) (i : Nat) (stv : ℚ)
    (h : lookupVote store i = none) : scaleVote store i stv = store := by
  unfold scaleVote
  have hids := List.find?_eq_none.mp h
  have : ∀ v ∈ store, (if v.id = i then { v with value := v.value * stv } else v) = v := by
    intro v hv
    have : ¬ v.id = i := by
      intro e
      exact absurd (decide_eq_true e) (by simpa using hids v hv)
    simp [this]
  rw [List.map_congr_left this]
  simp

theorem surplusFold_fst (excluding : List CName) (stv : ℚ) :
    ∀ (ids : List Nat) (store : List Vote) (cs : List Candidate),
    (ids.foldl (surplusStepFun excluding stv) (store, cs)).1 =
      ids.foldl (fun st id => scaleVote st id stv) store := by
  intro ids
  induction ids with
  | nil => intro store cs; rfl
  | cons i is ih =>
    intro store cs
    rw [List.foldl_cons, List.foldl_cons]
    cases h : lookupVote store i with
    | none =>
      rw [surplusStepFun_none excluding stv (store, cs) i h, scaleVote_of_absent store i stv h]
      exact ih store cs
    | some v =>
      cases h2 : Vote.get_preference_excluding { v with value := v.value * stv } excluding with
      | none =>
        rw [surplusStepFun_exhausted excluding stv (store, cs) i v h h2]
        exact ih _ _
      | some n =>
        rw [surplusStepFun_alloc excluding stv (store, cs) i v n h h2]
        exact ih _ _

theorem scaleFold_eq_map (stv : ℚ) :
    ∀ (ids : List Nat), ids.Nodup → ∀ store : List Vote,
    ids.foldl (fun st id => scaleVote st id stv) store =
      store.map (fun v => if v.id ∈ ids then { v with value := v.value * stv } else v) := by
  intro ids
  induction ids with
  | nil =>
    intro _ store
    simp
  | cons i is ih =>
    intro hnd store
    rw [List.nodup_cons] at hnd
    obtain ⟨hi, hnd'⟩ := hnd
    rw [List.foldl_cons, ih hnd', scaleVote, List.map_map]
    apply List.map_congr_left
    intro v _
    by_cases h1 : v.id = i
    · simp only [Function.comp_apply, if_pos h1]
      have h2 : ({ v with value := v.value * stv } : Vote).id ∉ is := by
        simpa [h1] using hi
      rw [if_neg h2, if_pos (show v.id ∈ i :: is from List.mem_cons.mpr (Or.inl h1))]
    · simp only [Function.comp_apply, if_neg h1]
      by_cases h3 : v.id ∈ is <;> simp [List.mem_cons, h1, h3]

/-! ### Surplus selection lemmas -/

theorem surplus_selection_spec (s : WrightSystem) (cand : Candidate)
    (hsel : s.surplus_selection = some cand) :
    (cand ∈ s.candidates ∧ s.quota < cand.total_value) ∧
    ∀ d ∈ s.candidates, s.quota < d.total_value → cand.total_value ≤ d.total_value := by
  unfold WrightSystem.surplus_selection at hsel
  cases hfil : s.candidates.filter (fun c => decide (s.quota < c.total_value)) with
  | nil =>
    rw [hfil] at hsel
    exact absurd hsel (by simp [pyMax])
  | cons c cs =>
    rw [hfil] at hsel
    replace hsel : pyMaxAux c cs = cand := by simpa [pyMax] using hsel
    have hmem : cand ∈ c :: cs := hsel ▸ pyMaxAux_mem cs c
    rw [← hfil] at hmem
    have hmf := List.mem_filter.mp hmem
    constructor
    · exact ⟨hmf.1, of_decide_eq_true hmf.2⟩
    · intro d hd hdq
      have hdf : d ∈ c :: cs := by
        rw [← hfil]
        exact List.mem_filter.mpr ⟨hd, decide_eq_true hdq⟩
      rw [← hsel]
      exact pyMaxAux_le cs c d hdf

theorem check_surplus_selection (s : WrightSystem)
    (h : s.check_if_candidates_surplus = true) :
    ∃ cand, s.surplus_selection = some cand := by
  unfold WrightSystem.check_if_candidates_surplus at h
  rw [List.any_eq_true] at h
  obtain ⟨c, hc, hp⟩ := h
  have hmem : c ∈ s.candidates.filter (fun c => decide (s.quota < c.total_value)) :=
    List.mem_filter.mpr ⟨hc, hp⟩
  unfold WrightSystem.surplus_selection
  cases hfil : s.candidates.filter (fun c => decide (s.quota < c.total_value)) with
  | nil => rw [hfil] at hmem; exact absurd hmem (List.not_mem_nil c)
  | cons a as => exact ⟨pyMaxAux a as, rfl⟩

theorem clamp_name (q : ℚ) (nm : CName) (x : Candidate) :
    (if x.name = nm then { x with total_value := q } else x).name = x.name := by
  by_cases h : x.name = nm <;> simp [h]

theorem clamp_votes (q : ℚ) (nm : CName) (x : Candidate) :
    (if x.name = nm then { x with total_value := q } else x).votes = x.votes := by
  by_cases h : x.name = nm <;> simp [h]

theorem clamp_total (q : ℚ) (nm : CName) (x : Candidate) :
    (if x.name = nm then { x with total_value := q } else x).total_value = x.total_value ∨
    (if x.name = nm then { x with total_value := q } else x).total_value = q := by
  by_cases h : x.name = nm
  · right; simp [h]
  · left; simp [h]

theorem clamp_total_of_name (q : ℚ) (nm : CName) (x : Candidate) (h : x.name = nm) :
    (if x.name = nm then { x with total_value := q } else x).total_value = q := by
  simp [h]

/-- The combined effect of one surplus distribution step on the candidate
pool: a per-candidate update that preserves names, clamps every candidate
named like the chosen one to the quota, and leaves provisional winners'
vote sets (and, apart from the clamp, their totals) untouched. -/
theorem calc_surplus_state (s : WrightSystem) (cand : Candidate)
    (hsel : s.surplus_selection = some cand) :
    (s.calc_and_distribute_surplus).quota = s.quota ∧
    (s.calc_and_distribute_surplus).vacancies = s.vacancies ∧
    winnersInv (s.calc_and_distribute_surplus) ∧
    ∃ H : Candidate → Candidate,
      (s.calc_and_distribute_surplus).candidates = s.candidates.map H ∧
      (∀ c, (H c).name = c.name) ∧
      (∀ c, c.name = cand.name → (H c).total_value = s.quota) ∧
      (∀ c, c.name ∈ s.provisional_winners →
        (H c).votes = c.votes ∧
          ((H c).total_value = c.total_value ∨ (H c).total_value = s.quota)) := by
  obtain ⟨G, hG, hGprop⟩ := surplusFold_snd_eq_map s.provisional_winners
    ((cand.total_value - s.quota) / cand.total_value) cand.votes s.votes s.candidates
  simp only [WrightSystem.calc_and_distribute_surplus, hsel]
  refine ⟨trivial, trivial, rfl, fun c =>
    if (G c).name = cand.name then { G c with total_value := s.quota } else G c,
    ?_, ?_, ?_, ?_⟩
  · rw [hG, List.map_map]
    rfl
  · intro c
    dsimp only
    rw [clamp_name]
    exact (hGprop c).1
  · intro c hc
    dsimp only
    apply clamp_total_of_name
    rw [(hGprop c).1, hc]
  · intro c hc
    dsimp only
    rw [(hGprop c).2 hc]
    exact ⟨clamp_votes _ _ _, clamp_total _ _ _⟩

theorem calc_surplus_offQuota (s : WrightSystem) (cand : Candidate)
    (hw : winnersInv s) (hsel : s.surplus_selection = some cand) :
    offQuota (s.calc_and_distribute_surplus) < offQuota s := by
  obtain ⟨hq, -, -, H, hcand, hname, hclamp, hwin⟩ := calc_surplus_state s cand hsel
  obtain ⟨⟨hmem, hgt⟩, -⟩ := surplus_selection_spec s cand hsel
  unfold offQuota
  rw [hq, hcand, List.countP_map]
  have h1 : ∀ a ∈ s.candidates,
      ((fun c => decide (¬ c.total_value = s.quota)) ∘ H) a = true →
      (fun c => decide (¬ c.total_value = s.quota)) a = true := by
    intro a ha hqa
    refine decide_eq_true ?_
    intro hceq
    have hcw : a.name ∈ s.provisional_winners := by
      rw [hw]
      exact List.mem_map_of_mem _
        (List.mem_filter.mpr ⟨ha, decide_eq_true (le_of_eq hceq.symm)⟩)
    have hHq : (H a).total_value = s.quota := by
      rcases (hwin a hcw).2 with h | h
      · rw [h, hceq]
      · exact h
    exact (of_decide_eq_true hqa) hHq
  have h2 : (fun c => decide (¬ c.total_value = s.quota)) cand = true :=
    decide_eq_true (ne_of_gt hgt)
  have h3 : ((fun c => decide (¬ c.total_value = s.quota)) ∘ H) cand = false :=
    decide_eq_false (not_not_intro (hclamp cand rfl))
  exact countP_lt_of_strict _ _ s.candidates h1 cand hmem h2 h3

/-! ### Surplus loop and elect termination -/

theorem offQuota_le_length (s : WrightSystem) : offQuota s ≤ s.candidates.length :=
  s.candidates.countP_le_length _

theorem surplusLoop_spec : ∀ (fuel : Nat) (s : WrightSystem),
    winnersInv s → offQuota s < fuel →
    ∃ s', s.surplusLoop fuel = some s' ∧ s'.vacancies = s.vacancies ∧
      s'.candidates.length = s.candidates.length := by
  intro fuel
  induction fuel with
  | zero => intro s _ h; exact absurd h (Nat.not_lt_zero _)
  | succ fuel ih =>
    intro s hw hm
    by_cases hc : s.check_if_candidates_surplus = true
    · obtain ⟨cand, hsel⟩ := check_surplus_selection s hc
      obtain ⟨hq, hvac, hwi1, H, hcand, -, -, -⟩ := calc_surplus_state s cand hsel
      have hlen1 : (s.calc_and_distribute_surplus).candidates.length =
          s.candidates.length := by rw [hcand]; simp
      by_cases hf : (s.calc_and_distribute_surplus).check_all_vacancies_filled = true
      · exact ⟨s.calc_and_distribute_surplus,
          by simp [WrightSystem.surplusLoop, hc, hf], hvac, hlen1⟩
      · have hm1 : offQuota (s.calc_and_distribute_surplus) < fuel :=
          lt_of_lt_of_le (calc_surplus_offQuota s cand hw hsel) (Nat.lt_succ_iff.mp hm)
        obtain ⟨s', hs', hv', hl'⟩ := ih (s.calc_and_distribute_surplus) hwi1 hm1
        exact ⟨s', by simp [WrightSystem.surplusLoop, hc, hf, hs'],
          hv'.trans hvac, hl'.trans hlen1⟩
    · exact ⟨s, by simp [WrightSystem.surplusLoop, hc], rfl, rfl⟩

theorem dist_vacancies (s : WrightSystem) :
    (s.distribution_of_preferences).vacancies = s.vacancies := rfl

theorem dist_length (s : WrightSystem) :
    (s.distribution_of_preferences).candidates.length = s.candidates.length := by
  show (distFold _ _).length = _
  rw [distFold_length]
  simp

theorem dist_winnersInv (s : WrightSystem) :
    winnersInv (s.distribution_of_preferences) := rfl

/-! ### Exclusion lemmas -/

theorem foldl_min_attained : ∀ (cs : List Candidate) (b : ℚ),
    cs.foldl (fun m x => min m x.total_value) b = b ∨
    ∃ c ∈ cs, cs.foldl (fun m x => min m x.total_value) b = c.total_value := by
  intro cs
  induction cs with
  | nil => intro b; left; rfl
  | cons x xs ih =>
    intro b
    rcases ih (min b x.total_value) with h | ⟨c, hc, he⟩
    · rcases le_total b x.total_value with hb | hb
      · left
        rw [List.foldl_cons, h, min_eq_left hb]
      · right
        exact ⟨x, List.mem_cons_self x xs, by rw [List.foldl_cons, h, min_eq_right hb]⟩
    · right
      exact ⟨c, List.mem_cons_of_mem _ hc, by rw [List.foldl_cons]; exact he⟩

theorem minTotal_attained (cs : List Candidate) (h : cs ≠ []) :
    ∃ c ∈ cs, c.total_value = minTotal cs := by
  cases cs with
  | nil => exact absurd rfl h
  | cons x xs =>
    unfold minTotal
    rcases foldl_min_attained xs x.total_value with h1 | ⟨c, hc, he⟩
    · exact ⟨x, List.mem_cons_self x xs, h1.symm⟩
    · exact ⟨c, List.mem_cons_of_mem _ hc, he.symm⟩

theorem excludedOf_mem (s : WrightSystem) (k : Nat) (h : s.candidates ≠ []) :
    s.excludedOf k ∈ s.candidates := by
  obtain ⟨c, hc, hce⟩ := minTotal_attained s.candidates h
  have hfil : c ∈ s.candidates.filter
      (fun c => decide (c.total_value = minTotal s.candidates)) :=
    List.mem_filter.mpr ⟨hc, decide_eq_true hce⟩
  have hne : s.candidates.filter
      (fun c => decide (c.total_value = minTotal s.candidates)) ≠ [] :=
    List.ne_nil_of_mem hfil
  have hlen : 0 < (s.candidates.filter
      (fun c => decide (c.total_value = minTotal s.candidates))).length :=
    List.length_pos.mpr hne
  have hidx : k % (s.candidates.filter
      (fun c => decide (c.total_value = minTotal s.candidates))).length <
      (s.candidates.filter
        (fun c => decide (c.total_value = minTotal s.candidates))).length :=
    Nat.mod_lt _ hlen
  unfold WrightSystem.excludedOf
  rw [List.getD_eq_getElem _ _ hidx]
  exact List.mem_of_mem_filter (List.getElem_mem _)

theorem candidates_isEmpty_false (s : WrightSystem) (h : s.candidates ≠ []) :
    s.candidates.isEmpty = false := by
  cases hc : s.candidates with
  | nil => exact absurd hc h
  | cons a l => rfl

theorem exclusion_state (s : WrightSystem) (k : Nat) (h : s.candidates ≠ []) :
    (s.exclusion_of_candidates k).vacancies = s.vacancies ∧
    (s.exclusion_of_candidates k).candidates.length + 1 = s.candidates.length := by
  have hie := candidates_isEmpty_false s h
  have hmem := excludedOf_mem s k h
  have hlen : (s.candidates.eraseP
      (fun c => decide (c.name = (s.excludedOf k).name))).length =
      s.candidates.length - 1 :=
    List.length_eraseP_of_mem hmem (decide_eq_true rfl)
  have hpos : 0 < s.candidates.length := List.length_pos.mpr h
  constructor
  · simp [WrightSystem.exclusion_of_candidates, hie]
  · simp only [WrightSystem.exclusion_of_candidates, hie]
    simp only [Bool.false_eq_true, if_false]
    rw [hlen]
    omega

theorem electFuel_terminates (rand : Nat → Nat) :
    ∀ (fuel : Nat) (s : WrightSystem), s.candidates.length - s.vacancies + 1 ≤ fuel →
    ∃ s', s.electFuel rand fuel = some s' ∧ s'.check_all_vacancies_filled = true := by
  intro fuel
  induction fuel with
  | zero => intro s h; exact absurd h (by omega)
  | succ fuel ih =>
    intro s h
    by_cases h0 : s.check_all_vacancies_filled = true
    · exact ⟨s, by simp [WrightSystem.electFuel, h0], h0⟩
    · have hlen1 : (s.distribution_of_preferences).candidates.length =
        s.candidates.length := dist_length s
      by_cases h1 : (s.distribution_of_preferences).check_all_vacancies_filled = true
      · exact ⟨s.distribution_of_preferences, by simp [WrightSystem.electFuel, h0, h1], h1⟩
      · have hm : offQuota (s.distribution_of_preferences) <
            (s.distribution_of_preferences).candidates.length + 1 :=
          Nat.lt_succ_of_le (offQuota_le_length _)
        obtain ⟨s2, hloop, hvac2, hlen2⟩ :=
          surplusLoop_spec ((s.distribution_of_preferences).candidates.length + 1)
            (s.distribution_of_preferences) (dist_winnersInv s) hm
        by_cases h2 : s2.check_all_vacancies_filled = true
        · exact ⟨s2, by simp [WrightSystem.electFuel, h0, h1, hloop, h2], h2⟩
        · have hnotle : ¬ s2.candidates.length ≤ s2.vacancies := by
            intro hle
            apply h2
            unfold WrightSystem.check_all_vacancies_filled
            simp [hle]
          have hne : s2.candidates ≠ [] := by
            apply List.length_pos.mp
            omega
          obtain ⟨hvac3, hlen3⟩ := exclusion_state s2 (rand fuel) hne
          have hvac1 : (s.distribution_of_preferences).vacancies = s.vacancies := rfl
          have hbound : (s2.exclusion_of_candidates (rand fuel)).candidates.length -
              (s2.exclusion_of_candidates (rand fuel)).vacancies + 1 ≤ fuel := by
            rw [hvac3, hvac2, hvac1]
            omega
          obtain ⟨s', hrun, hfill⟩ := ih (s2.exclusion_of_candidates (rand fuel)) hbound
          exact ⟨s', by simp [WrightSystem.electFuel, h0, h1, hloop, h2, hrun], hfill⟩

/-! ### Value conservation lemmas (distribution of preferences) -/

theorem sumTotals_cons (c : Candidate) (cs : List Candidate) :
    sumTotals (c :: cs) = c.total_value + sumTotals cs := by
  simp [sumTotals]

theorem sumValues_cons (v : Vote) (vs : List Vote) :
    sumValues (v :: vs) = v.value + sumValues vs := by
  simp [sumValues]

theorem sumTotals_allocTo (cs : List Candidate) (n : CName) (v : Vote)
    (hnd : (cs.map (fun c => c.name)).Nodup) (hn : n ∈ cs.map (fun c => c.name)) :
    sumTotals (allocTo cs n v) = sumTotals cs + v.value := by
  induction cs with
  | nil => simp at hn
  | cons c cs ih =>
    rw [List.map_cons, List.nodup_cons] at hnd
    obtain ⟨hcn, hnd'⟩ := hnd
    rw [show allocTo (c :: cs) n v =
        (if c.name = n then c.alloc_vote v else c) :: allocTo cs n v from rfl]
    by_cases hc : c.name = n
    · have hnotin : n ∉ cs.map (fun c => c.name) := hc ▸ hcn
      rw [if_pos hc, allocTo_of_not_mem cs n v hnotin, sumTotals_cons, sumTotals_cons]
      show c.total_value + v.value + sumTotals cs = _
      ring
    · have hn' : n ∈ cs.map (fun c => c.name) := by
        rcases List.mem_cons.mp hn with h | h
        · exact absurd h.symm hc
        · exact h
      rw [if_neg hc, sumTotals_cons, sumTotals_cons, ih hnd' hn']
      ring

theorem sumTotals_distFold : ∀ (vs : List Vote) (cs : List Candidate),
    (cs.map (fun c => c.name)).Nodup →
    (∀ v ∈ vs, ∃ n, v.get_preference = some n ∧ n ∈ cs.map (fun c => c.name)) →
    sumTotals (distFold vs cs) = sumTotals cs + sumValues vs := by
  intro vs
  induction vs with
  | nil => intro cs _ _; simp [distFold, sumValues]
  | cons v vs ih =>
    intro cs hnd hcl
    obtain ⟨n, hp, hn⟩ := hcl v (List.mem_cons_self v vs)
    have hda : distAlloc cs v = allocTo cs n v := by unfold distAlloc; rw [hp]
    rw [show distFold (v :: vs) cs = distFold vs (distAlloc cs v) from rfl, hda]
    rw [ih (allocTo cs n v) (by rw [allocTo_names]; exact hnd) (fun w hw => by
      obtain ⟨m, hm1, hm2⟩ := hcl w (List.mem_cons_of_mem _ hw)
      exact ⟨m, hm1, by rw [allocTo_names]; exact hm2⟩)]
    rw [sumTotals_allocTo cs n v hnd hn, sumValues_cons]
    ring

/-! ### Per-candidate total lemmas (candidate totals match allocated votes) -/

theorem lookupVote_self : ∀ (vs : List Vote), (vs.map (fun v => v.id)).Nodup →
    ∀ v ∈ vs, lookupVote vs v.id = some v := by
  intro vs
  induction vs with
  | nil => intro _ v hv; exact absurd hv (List.not_mem_nil v)
  | cons w ws ih =>
    intro hnd v hv
    rw [List.map_cons, List.nodup_cons] at hnd
    obtain ⟨hw, hnd'⟩ := hnd
    rcases List.mem_cons.mp hv with rfl | hv'
    · unfold lookupVote
      exact List.find?_cons_of_pos _ (decide_eq_true rfl)
    · have hne : ¬ (w.id = v.id) := by
        intro e
        apply hw
        rw [e]
        exact List.mem_map_of_mem _ hv'
      unfold lookupVote
      rw [List.find?_cons_of_neg]
      · exact ih hnd' v hv'
      · simpa using hne

theorem voteValueSum_append (store : List Vote) (ids : List Nat) (i : Nat) :
    voteValueSum store (ids ++ [i]) = voteValueSum store ids + lookupValue store i := by
  simp [voteValueSum]

theorem distFold_totals : ∀ (vs : List Vote) (cs : List Candidate) (store : List Vote),
    (store.map (fun v => v.id)).Nodup →
    (∀ v ∈ vs, v ∈ store) →
    (vs.map (fun v => v.id)).Nodup →
    (∀ c ∈ cs, c.total_value = voteValueSum store c.votes) →
    (∀ c ∈ cs, ∀ v ∈ vs, v.id ∉ c.votes) →
    ∀ c ∈ distFold vs cs, c.total_value = voteValueSum store c.votes := by
  intro vs
  induction vs with
  | nil => intro cs store _ _ _ hinv _ c hc; exact hinv c hc
  | cons v vs ih =>
    intro cs store hstore hsub hnd hinv hfresh
    rw [List.map_cons, List.nodup_cons] at hnd
    obtain ⟨hvid, hnd'⟩ := hnd
    rw [show distFold (v :: vs) cs = distFold vs (distAlloc cs v) from rfl]
    cases hp : v.get_preference with
    | none =>
      have hda : distAlloc cs v = cs := by unfold distAlloc; rw [hp]
      rw [hda]
      exact ih cs store hstore (fun w hw => hsub w (List.mem_cons_of_mem _ hw)) hnd' hinv
        (fun c hc w hw => hfresh c hc w (List.mem_cons_of_mem _ hw))
    | some n =>
      have hda : distAlloc cs v = allocTo cs n v := by unfold distAlloc; rw [hp]
      rw [hda]
      apply ih (allocTo cs n v) store hstore
        (fun w hw => hsub w (List.mem_cons_of_mem _ hw)) hnd'
      · intro c' hc'
        obtain ⟨c, hc, rfl⟩ := List.mem_map.mp hc'
        by_cases hcn : c.name = n
        · rw [if_pos hcn]
          have hfr : v.id ∉ c.votes := hfresh c hc v (List.mem_cons_self v vs)
          simp only [Candidate.alloc_vote, if_neg hfr]
          rw [voteValueSum_append, ← hinv c hc]
          have hlv : lookupValue store v.id = v.value := by
            unfold lookupValue
            rw [lookupVote_self store hstore v (hsub v (List.mem_cons_self v vs))]
            rfl
          rw [hlv]
        · rw [if_neg hcn]
          exact hinv c hc
      · intro c' hc' w hw
        obtain ⟨c, hc, rfl⟩ := List.mem_map.mp hc'
        have hwv : w.id ≠ v.id := by
          intro e
          apply hvid
          rw [← e]
          exact List.mem_map_of_mem _ hw
        by_cases hcn : c.name = n
        · rw [if_pos hcn]
          have hfr : v.id ∉ c.votes := hfresh c hc v (List.mem_cons_self v vs)
          simp only [Candidate.alloc_vote, if_neg hfr]
          intro hmem
          rcases List.mem_append.mp hmem with h | h
          · exact hfresh c hc w (List.mem_cons_of_mem _ hw) h
          · exact hwv (List.mem_singleton.mp h)
        · rw [if_neg hcn]
          exact hfresh c hc w (List.mem_cons_of_mem _ hw)

theorem lookupValue_prefEdit (nm : CName) : ∀ (vs : List Vote) (i : Nat),
    lookupValue (vs.map (fun v => { v with preference := v.preference.erase nm })) i =
      lookupValue vs i := by
  intro vs i
  induction vs with
  | nil => rfl
  | cons w ws ih =>
    rw [List.map_cons]
    by_cases h : w.id = i
    · unfold lookupValue lookupVote
      have h1 : List.find? (fun v => decide (v.id = i))
          ({ w with preference := w.preference.erase nm } ::
            ws.map (fun v => { v with preference := v.preference.erase nm })) =
          some { w with preference := w.preference.erase nm } :=
        List.find?_cons_of_pos _ (decide_eq_true h)
      have h2 : List.find? (fun v => decide (v.id = i)) (w :: ws) = some w :=
        List.find?_cons_of_pos _ (decide_eq_true h)
      rw [h1, h2]
      rfl
    · unfold lookupValue lookupVote
      have h1 : List.find? (fun v => decide (v.id = i))
          ({ w with preference := w.preference.erase nm } ::
            ws.map (fun v => { v with preference := v.preference.erase nm })) =
          List.find? (fun v => decide (v.id = i))
            (ws.map (fun v => { v with preference := v.preference.erase nm })) := by
        apply List.find?_cons_of_neg
        simpa using h
      have h2 : List.find? (fun v => decide (v.id = i)) (w :: ws) =
          List.find? (fun v => decide (v.id = i)) ws := by
        apply List.find?_cons_of_neg
        simpa using h
      rw [h1, h2]
      exact ih

theorem voteValueSum_prefEdit (nm : CName) (vs : List Vote) (ids : List Nat) :
    voteValueSum (vs.map (fun v => { v with preference := v.preference.erase nm })) ids =
      voteValueSum vs ids := by
  unfold voteValueSum
  apply congrArg
  apply List.map_congr_left
  intro i _
  exact lookupValue_prefEdit nm vs i

/-! ### Vote value lemmas (surplus transfer) -/

theorem calc_surplus_votes (s : WrightSystem) (cand : Candidate)
    (hsel : s.surplus_selection = some cand) (hnd : cand.votes.Nodup) :
    (s.calc_and_distribute_surplus).votes =
      s.votes.map (fun v => if v.id ∈ cand.votes
        then { v with value := v.value * ((cand.total_value - s.quota) / cand.total_value) }
        else v) := by
  simp only [WrightSystem.calc_and_distribute_surplus, hsel]
  rw [surplusFold_fst, scaleFold_eq_map _ cand.votes hnd s.votes]

theorem surplusSTV_pos_lt_one (s : WrightSystem) (cand : Candidate)
    (hsel : s.surplus_selection = some cand) (hq : 0 < s.quota) :
    0 < surplusSTV s cand ∧ surplusSTV s cand < 1 := by
  obtain ⟨⟨-, hgt⟩, -⟩ := surplus_selection_spec s cand hsel
  have ht : 0 < cand.total_value := lt_trans hq hgt
  unfold surplusSTV
  constructor
  · apply div_pos _ ht
    linarith
  · rw [div_lt_one ht]
    linarith

theorem dist_votes_value_one (s : WrightSystem) :
    ∀ v ∈ (s.distribution_of_preferences).votes, v.value = 1 := by
  intro v hv
  simp only [WrightSystem.distribution_of_preferences] at hv
  obtain ⟨w, -, rfl⟩ := List.mem_map.mp hv
  rfl

/-! ### Winner query lemmas -/

theorem filled_get_winners_isSome (s : WrightSystem)
    (h : s.check_all_vacancies_filled = true) : (s.get_winners).isSome = true := by
  unfold WrightSystem.check_all_vacancies_filled at h
  rw [Bool.or_eq_true] at h
  unfold WrightSystem.get_winners
  rcases h with h | h
  · rw [decide_eq_true_eq] at h
    rw [if_pos h]
    rfl
  · rw [decide_eq_true_eq] at h
    by_cases h1 : s.candidates.length ≤ s.vacancies
    · rw [if_pos h1]
      rfl
    · rw [if_neg h1, if_pos h]
      rfl

theorem electFuel_some_filled (rand : Nat → Nat) :
    ∀ (fuel : Nat) (s s' : WrightSystem), s.electFuel rand fuel = some s' →
    s'.check_all_vacancies_filled = true := by
  intro fuel
  induction fuel with
  | zero =>
    intro s s' h
    by_cases h0 : s.check_all_vacancies_filled = true
    · have : s = s' := by
        have := h
        simp [WrightSystem.electFuel, h0] at this
        exact this
      rw [← this]
      exact h0
    · simp [WrightSystem.electFuel, h0] at h
  | succ fuel ih =>
    intro s s' h
    by_cases h0 : s.check_all_vacancies_filled = true
    · have : s = s' := by
        have := h
        simp [WrightSystem.electFuel, h0] at this
        exact this
      rw [← this]
      exact h0
    · simp only [WrightSystem.electFuel, h0] at h
      rw [if_neg (by simp [h0])] at h
      by_cases h1 : (s.distribution_of_preferences).check_all_vacancies_filled = true
      · rw [if_pos h1] at h
        have : s.distribution_of_preferences = s' := by simpa using h
        rw [← this]
        exact h1
      · rw [if_neg h1] at h
        cases hloop : (s.distribution_of_preferences).surplusLoop
            ((s.distribution_of_preferences).candidates.length + 1) with
        | none => rw [hloop] at h; simp at h
        | some s2 =>
          rw [hloop] at h
          simp only at h
          by_cases h2 : s2.check_all_vacancies_filled = true
          · rw [if_pos h2] at h
            have : s2 = s' := by simpa using h
            rw [← this]
            exact h2
          · rw [if_neg h2] at h
            exact ih _ _ h

theorem exclusion_totals (s : WrightSystem) (k : Nat)
    (hinv : ∀ c ∈ s.candidates, c.total_value = voteValueSum s.votes c.votes) :
    ∀ c ∈ (s.exclusion_of_candidates k).candidates,
      c.total_value = voteValueSum (s.exclusion_of_candidates k).votes c.votes := by
  by_cases hie : s.candidates.isEmpty = true
  · simp only [WrightSystem.exclusion_of_candidates, hie, if_true]
    exact hinv
  · have hie' : s.candidates.isEmpty = false := by simpa using hie
    simp only [WrightSystem.exclusion_of_candidates, hie', Bool.false_eq_true, if_false]
    intro c hc
    have hcs : c ∈ s.candidates := (List.eraseP_sublist _).subset hc
    rw [voteValueSum_prefEdit]
    exact hinv c hcs

theorem reset_names (cs : List Candidate) :
    (cs.map (fun c => { c with total_value := (0 : ℚ), votes := ([] : List Nat) })).map
      (fun c => c.name) = cs.map (fun c => c.name) := by
  rw [List.map_map]
  rfl

theorem sumTotals_reset (cs : List Candidate) :
    sumTotals
      (cs.map (fun c => { c with total_value := (0 : ℚ), votes := ([] : List Nat) })) =
      0 := by
  unfold sumTotals
  rw [List.map_map]
  apply List.sum_eq_zero
  intro q hq
  obtain ⟨c, -, rfl⟩ := List.mem_map.mp hq
  rfl

/-! ## The claims -/

/-- Claim C1, counterexample: in the two-surplus election both A (total 10)
and B (total 8) exceed the quota 6, yet the engine's `max` under the
reversed `Candidate.__lt__` selects B, the surplus candidate with the
SMALLEST total value, not A, the one with the greatest. -/
theorem c1_counterexample :
    stateTwoSurplus.surplus_selection =
      some ⟨"B", [11, 12, 13, 14, 15, 16, 17, 18], 8⟩ ∧
    ((stateTwoSurplus.candidates.find? (fun c => decide (c.name = "A"))).map
      (fun c => c.total_value) = some 10) ∧
    stateTwoSurplus.quota < 10 ∧ (8 : ℚ) < 10 :=
  ⟨by with_unfolding_all rfl, by with_unfolding_all rfl,
   of_decide_eq_true (by with_unfolding_all rfl),
   of_decide_eq_true (by with_unfolding_all rfl)⟩

/-- Claim C1, amended: among the candidates whose `total_value` strictly
exceeds the quota, `calc_and_distribute_surplus` selects the one with the
LEAST `total_value` (the maximum under the reversed `Candidate.__lt__`
ordering), ties going to the earliest in candidate iteration order. -/
theorem c1_amended_selection (s : WrightSystem) (cand : Candidate)
    (hsel : s.surplus_selection = some cand) :
    (cand ∈ s.candidates ∧ s.quota < cand.total_value) ∧
    ∀ d ∈ s.candidates, s.quota < d.total_value → cand.total_value ≤ d.total_value :=
  surplus_selection_spec s cand hsel

/-- Witness for C1: in the two-surplus election the selected candidate B
has surplus, and its total (8) is a lower bound of every surplus
candidate's total. -/
theorem c1_witness :
    stateTwoSurplus.surplus_selection =
      some ⟨"B", [11, 12, 13, 14, 15, 16, 17, 18], 8⟩ ∧
    ((⟨"B", [11, 12, 13, 14, 15, 16, 17, 18], 8⟩ : Candidate) ∈
        stateTwoSurplus.candidates ∧
      stateTwoSurplus.quota < (8 : ℚ)) ∧
    ∀ d ∈ stateTwoSurplus.candidates, stateTwoSurplus.quota < d.total_value →
      (8 : ℚ) ≤ d.total_value :=
  ⟨by with_unfolding_all rfl,
   (c1_amended_selection stateTwoSurplus ⟨"B", [11, 12, 13, 14, 15, 16, 17, 18], 8⟩
      (by with_unfolding_all rfl)).1,
   (c1_amended_selection stateTwoSurplus ⟨"B", [11, 12, 13, 14, 15, 16, 17, 18], 8⟩
      (by with_unfolding_all rfl)).2⟩

/-- Claim C2, counterexample: in the duplicate-preference election A is
the unique minimum (so every lot outcome excludes A); after the exclusion
A is gone from the candidate pool and from the head of ballot 1, but its
second occurrence survives in ballot 1's preference list, because
`list.remove` deletes only the first occurrence. -/
theorem c2_counterexample :
    ((stateDupPref.candidates.filter
        (fun c => decide (c.total_value = minTotal stateDupPref.candidates))).map
      (fun c => c.name) = ["A"]) ∧
    (stateDupPref.excludedOf 0).name = "A" ∧
    ((stateDupPref.exclusion_of_candidates 0).candidates.map (fun c => c.name) =
      ["B", "C"]) ∧
    ((stateDupPref.exclusion_of_candidates 0).votes.map (fun v => v.preference) =
      [["B", "A"], ["B"], ["C"], ["C"], ["B"]]) ∧
    ((stateDupPref.exclusion_of_candidates 0).votes.any
      (fun v => v.preference.contains "A") = true) :=
  ⟨by with_unfolding_all rfl, by with_unfolding_all rfl, by with_unfolding_all rfl,
   by with_unfolding_all rfl, by with_unfolding_all rfl⟩

/-- Claim C2, amended: on a nonempty candidate pool, every exclusion call
(for every lot outcome) decreases the number of candidates by exactly one
and removes the first occurrence of the excluded candidate from each
vote's preference list; when no preference list contains duplicates, the
excluded candidate therefore appears in no preference list afterwards. -/
theorem c2_amended_exclusion (s : WrightSystem) (k : Nat) (h : s.candidates ≠ [])
    (hnd : ∀ v ∈ s.votes, v.preference.Nodup) :
    (s.exclusion_of_candidates k).candidates.length + 1 = s.candidates.length ∧
    ∀ v ∈ (s.exclusion_of_candidates k).votes, (s.excludedOf k).name ∉ v.preference := by
  refine ⟨(exclusion_state s k h).2, ?_⟩
  intro v hv
  have hie := candidates_isEmpty_false s h
  simp only [WrightSystem.exclusion_of_candidates, hie, Bool.false_eq_true, if_false] at hv
  obtain ⟨w, hw, rfl⟩ := List.mem_map.mp hv
  show (s.excludedOf k).name ∉ w.preference.erase (s.excludedOf k).name
  exact (hnd w hw).not_mem_erase

/-- Witness for C2: excluding from the one-surplus election state (all
its preference lists are duplicate-free) shrinks the pool from 3 to 2 and
removes the excluded candidate from every preference list. -/
theorem c2_witness :
    stateOneSurplus.candidates ≠ [] ∧
    (∀ v ∈ stateOneSurplus.votes, v.preference.Nodup) ∧
    ((stateOneSurplus.exclusion_of_candidates 1).candidates.length + 1 =
        stateOneSurplus.candidates.length ∧
      ∀ v ∈ (stateOneSurplus.exclusion_of_candidates 1).votes,
        (stateOneSurplus.excludedOf 1).name ∉ v.preference) :=
  ⟨of_decide_eq_true (by with_unfolding_all rfl),
   of_decide_eq_true (by with_unfolding_all rfl),
   c2_amended_exclusion stateOneSurplus 1 (of_decide_eq_true (by with_unfolding_all rfl))
     (of_decide_eq_true (by with_unfolding_all rfl))⟩

/-- Claim C3: for any ballots with at least one vacancy and at least one
candidate, and for every outcome of the lot-drawing tie-breaks, the
election started at construction reaches a terminal state within
|initial candidates| - vacancies + 1 rounds (in particular each round's
inner surplus loop performs finitely many iterations: `electFuel` allots
it |candidates| + 1 iterations and, by `surplusLoop_spec`, it always
returns within them). -/
theorem c3_elect_terminates (vacancies : Nat) (ballots : List (Nat × List CName))
    (rand : Nat → Nat) (h1 : 1 ≤ vacancies)
    (h2 : 1 ≤ (initState vacancies ballots).candidates.length) :
    ∃ s', (initState vacancies ballots).electFuel rand
        ((initState vacancies ballots).candidates.length - vacancies + 1) = some s' ∧
      s'.check_all_vacancies_filled = true :=
  electFuel_terminates rand _ _ (le_refl _)

/-- Witness for C3: the specification's seed scenario (3 candidates, one
vacancy) terminates within 3 - 1 + 1 = 3 rounds. -/
theorem c3_witness :
    1 ≤ 1 ∧ 1 ≤ (initState 1 ballotsSeed).candidates.length ∧
    ∃ s', (initState 1 ballotsSeed).electFuel (fun _ => 0)
        ((initState 1 ballotsSeed).candidates.length - 1 + 1) = some s' ∧
      s'.check_all_vacancies_filled = true :=
  ⟨le_refl 1, of_decide_eq_true (by with_unfolding_all rfl),
   c3_elect_terminates 1 ballotsSeed (fun _ => 0) (le_refl 1)
     (of_decide_eq_true (by with_unfolding_all rfl))⟩

/-- Claim C4: immediately after a distribution of preferences the quota
equals floor(total_votes / (vacancies + 1)) + 1 exactly, where
total_votes is the sum of the values of the active votes; the quota is a
function of total_votes and vacancies only (the formula has no other
inputs). -/
theorem c4_quota_formula (s : WrightSystem) :
    (s.distribution_of_preferences).quota =
      ((⌊(s.distribution_of_preferences).total_votes /
          (1 + ((s.distribution_of_preferences).vacancies : ℚ))⌋ : ℤ) : ℚ) + 1 ∧
    (s.distribution_of_preferences).total_votes =
      sumValues (s.distribution_of_preferences).votes :=
  ⟨rfl, rfl⟩

/-- Claim C5: after a surplus-distribution step for a selected candidate,
that candidate's `total_value` equals the quota exactly (the quota itself
is unchanged by the step). -/
theorem c5_surplus_clamp (s : WrightSystem) (cand : Candidate)
    (hsel : s.surplus_selection = some cand) :
    (s.calc_and_distribute_surplus).quota = s.quota ∧
    ∀ c ∈ (s.calc_and_distribute_surplus).candidates,
      c.name = cand.name → c.total_value = s.quota := by
  obtain ⟨hq, -, -, H, hcand, hname, hclamp, -⟩ := calc_surplus_state s cand hsel
  refine ⟨hq, ?_⟩
  intro c hc hcn
  rw [hcand] at hc
  obtain ⟨c0, hc0, rfl⟩ := List.mem_map.mp hc
  apply hclamp
  rw [← hname c0]
  exact hcn

/-- Witness for C5: distributing A's surplus in the one-surplus election
leaves A's total exactly at the quota 3. -/
theorem c5_witness :
    stateOneSurplus.surplus_selection = some candA ∧
    ((stateOneSurplus.calc_and_distribute_surplus).quota = stateOneSurplus.quota ∧
      ∀ c ∈ (stateOneSurplus.calc_and_distribute_surplus).candidates,
        c.name = candA.name → c.total_value = stateOneSurplus.quota) :=
  ⟨by with_unfolding_all rfl,
   c5_surplus_clamp stateOneSurplus candA (by with_unfolding_all rfl)⟩

/-- Claim C6: right after a distribution of preferences the sum of the
active votes' values equals `total_votes`, and `total_votes` equals the
sum of `total_value` over the candidates.  The second equality needs the
candidate names to be unique (guaranteed by the Python dict) and every
preference entry to denote a live candidate (guaranteed for ballots
without duplicate entries; see C2 for how duplicates break it). -/
theorem c6_value_conservation (s : WrightSystem) (hclosed : closedPrefs s)
    (hnd : (s.candidates.map (fun c => c.name)).Nodup) :
    sumValues (s.distribution_of_preferences).votes =
      (s.distribution_of_preferences).total_votes ∧
    (s.distribution_of_preferences).total_votes =
      sumTotals (s.distribution_of_preferences).candidates := by
  refine ⟨rfl, ?_⟩
  have hnames := reset_names s.candidates
  have hnd0 : ((s.candidates.map
      (fun c => { c with total_value := (0 : ℚ), votes := ([] : List Nat) })).map
        (fun c => c.name)).Nodup := by
    rw [hnames]
    exact hnd
  have hcl : ∀ v ∈ (s.votes.filter (fun v => !v.preference.isEmpty)).map
      (fun v => { v with value := (1 : ℚ) }),
      ∃ n, Vote.get_preference v = some n ∧ n ∈ (s.candidates.map
        (fun c => { c with total_value := (0 : ℚ), votes := ([] : List Nat) })).map
          (fun c => c.name) := by
    intro v hv
    obtain ⟨w, hw, rfl⟩ := List.mem_map.mp hv
    have hwmem := List.mem_filter.mp hw
    have hemp : w.preference.isEmpty = false := by simpa using hwmem.2
    cases hpref : w.preference with
    | nil => rw [hpref] at hemp; simp at hemp
    | cons n rest =>
      refine ⟨n, rfl, ?_⟩
      · rw [hnames]
        exact hclosed w hwmem.1 n (by rw [hpref]; exact List.mem_cons_self n rest)
  simp only [WrightSystem.distribution_of_preferences]
  rw [sumTotals_distFold _ _ hnd0 hcl, sumTotals_reset]
  ring

/-- Witness for C6: value conservation after the first distribution of
the one-surplus election (6 active votes, total 6, candidate totals
5 + 0 + 1). -/
theorem c6_witness :
    closedPrefs (initState 2 ballotsOneSurplus) ∧
    (((initState 2 ballotsOneSurplus).candidates.map (fun c => c.name)).Nodup ∧
      (sumValues stateOneSurplus.votes = stateOneSurplus.total_votes ∧
        stateOneSurplus.total_votes = sumTotals stateOneSurplus.candidates)) :=
  ⟨by unfold closedPrefs; exact of_decide_eq_true (by with_unfolding_all rfl),
   of_decide_eq_true (by with_unfolding_all rfl),
   c6_value_conservation (initState 2 ballotsOneSurplus)
     (by unfold closedPrefs; exact of_decide_eq_true (by with_unfolding_all rfl))
     (of_decide_eq_true (by with_unfolding_all rfl))⟩

/-- Claim C7, counterexample: in the one-surplus election, right after
A's surplus-distribution step (a point "between operations"), A's
recorded allocation still holds votes 1-5, now worth 2/5 each (sum 2),
while A's `total_value` has been clamped to the quota 3: the invariant
`total_value = sum of allocated votes' values` fails for A. -/
theorem c7_counterexample :
    (((stateOneSurplus.calc_and_distribute_surplus).candidates.find?
        (fun c => decide (c.name = "A"))).map
      (fun c => (c.total_value,
        voteValueSum (stateOneSurplus.calc_and_distribute_surplus).votes c.votes)) =
      some (3, 2)) ∧ ¬ ((3 : ℚ) = 2) :=
  ⟨by with_unfolding_all rfl, of_decide_eq_true (by with_unfolding_all rfl)⟩

/-- Claim C7, amended: the invariant `total_value` = sum of the values of
the candidate's allocated votes holds for every candidate right after a
distribution of preferences (given the Python-guaranteed uniqueness of
ballot ids), and is preserved by exclusion; after a surplus-distribution
step it can fail for the source candidate, whose total is clamped to the
quota while its vote set keeps the scaled-down votes. -/
theorem c7_amended_totals (s : WrightSystem)
    (hnd : (s.votes.map (fun v => v.id)).Nodup) :
    (∀ c ∈ (s.distribution_of_preferences).candidates,
      c.total_value = voteValueSum (s.distribution_of_preferences).votes c.votes) ∧
    ((∀ c ∈ s.candidates, c.total_value = voteValueSum s.votes c.votes) →
      ∀ k, ∀ c ∈ (s.exclusion_of_candidates k).candidates,
        c.total_value = voteValueSum (s.exclusion_of_candidates k).votes c.votes) := by
  constructor
  · intro c hc
    have hids : (((s.votes.filter (fun v => !v.preference.isEmpty)).map
        (fun v => { v with value := (1 : ℚ) })).map (fun v => v.id)).Nodup := by
      have heq : (((s.votes.filter (fun v => !v.preference.isEmpty)).map
          (fun v => { v with value := (1 : ℚ) })).map (fun v => v.id)) =
          (s.votes.filter (fun v => !v.preference.isEmpty)).map (fun v => v.id) := by
        rw [List.map_map]
        rfl
      rw [heq]
      exact hnd.sublist ((List.filter_sublist s.votes).map _)
    simp only [WrightSystem.distribution_of_preferences] at hc ⊢
    refine distFold_totals _ _ _ hids (fun v h => h) hids ?_ ?_ c hc
    · intro c0 hc0
      obtain ⟨c1, -, rfl⟩ := List.mem_map.mp hc0
      rfl
    · intro c0 hc0 v hv
      obtain ⟨c1, -, rfl⟩ := List.mem_map.mp hc0
      exact List.not_mem_nil _
  · intro hinv k
    exact exclusion_totals s k hinv

/-- Witness for C7: the seed election has unique ballot ids; after its
first distribution every candidate total matches its allocated votes, and
any exclusion preserves the invariant. -/
theorem c7_witness :
    ((initState 1 ballotsSeed).votes.map (fun v => v.id)).Nodup ∧
    ((∀ c ∈ ((initState 1 ballotsSeed).distribution_of_preferences).candidates,
        c.total_value = voteValueSum
          ((initState 1 ballotsSeed).distribution_of_preferences).votes c.votes) ∧
      ((∀ c ∈ (initState 1 ballotsSeed).candidates,
          c.total_value = voteValueSum (initState 1 ballotsSeed).votes c.votes) →
        ∀ k, ∀ c ∈ ((initState 1 ballotsSeed).exclusion_of_candidates k).candidates,
          c.total_value = voteValueSum
            ((initState 1 ballotsSeed).exclusion_of_candidates k).votes c.votes)) :=
  ⟨of_decide_eq_true (by with_unfolding_all rfl),
   c7_amended_totals (initState 1 ballotsSeed)
     (of_decide_eq_true (by with_unfolding_all rfl))⟩

/-- Claim C8: every vote's value is reset to 1 by the distribution of
preferences; a surplus-distribution step multiplies exactly the chosen
candidate's votes by the surplus transfer value, which lies strictly
between 0 and 1 (the quota is positive in every reachable round), so a
vote's value stays in (0, 1] and never increases. -/
theorem c8_vote_values (s : WrightSystem) (cand : Candidate)
    (hsel : s.surplus_selection = some cand) (hq : 0 < s.quota)
    (hnd : cand.votes.Nodup) :
    (∀ v ∈ (s.distribution_of_preferences).votes, v.value = 1) ∧
    (0 < surplusSTV s cand ∧ surplusSTV s cand < 1) ∧
    ∀ v ∈ s.votes, ∃ v' ∈ (s.calc_and_distribute_surplus).votes, v'.id = v.id ∧
      (v'.value = v.value ∨ v'.value = v.value * surplusSTV s cand) ∧
      (0 < v.value → v.value ≤ 1 →
        0 < v'.value ∧ v'.value ≤ 1 ∧ v'.value ≤ v.value) := by
  obtain ⟨hpos, hlt⟩ := surplusSTV_pos_lt_one s cand hsel hq
  refine ⟨dist_votes_value_one s, ⟨hpos, hlt⟩, ?_⟩
  intro v hv
  have hm := List.mem_map_of_mem
    (fun w => if w.id ∈ cand.votes
      then { w with value := w.value * ((cand.total_value - s.quota) / cand.total_value) }
      else w) hv
  by_cases hvid : v.id ∈ cand.votes
  · refine ⟨{ v with value := v.value * surplusSTV s cand }, ?_, rfl, Or.inr rfl, ?_⟩
    · rw [calc_surplus_votes s cand hsel hnd]
      simpa [hvid, surplusSTV] using hm
    · intro hv0 hv1
      refine ⟨mul_pos hv0 hpos, ?_, ?_⟩
      · exact le_trans (mul_le_of_le_one_right (le_of_lt hv0) (le_of_lt hlt)) hv1
      · exact mul_le_of_le_one_right (le_of_lt hv0) (le_of_lt hlt)
  · refine ⟨v, ?_, rfl, Or.inl rfl, fun hv0 hv1 => ⟨hv0, hv1, le_refl _⟩⟩
    rw [calc_surplus_votes s cand hsel hnd]
    simpa [hvid] using hm

/-- Witness for C8: distributing A's surplus in the one-surplus election
(quota 3 > 0, A's vote ids distinct) scales values by 2/5 and keeps them
in (0, 1]. -/
theorem c8_witness :
    stateOneSurplus.surplus_selection = some candA ∧
    0 < stateOneSurplus.quota ∧ candA.votes.Nodup ∧
    ((∀ v ∈ (stateOneSurplus.distribution_of_preferences).votes, v.value = 1) ∧
      (0 < surplusSTV stateOneSurplus candA ∧ surplusSTV stateOneSurplus candA < 1) ∧
      ∀ v ∈ stateOneSurplus.votes,
        ∃ v' ∈ (stateOneSurplus.calc_and_distribute_surplus).votes, v'.id = v.id ∧
          (v'.value = v.value ∨ v'.value = v.value * surplusSTV stateOneSurplus candA) ∧
          (0 < v.value → v.value ≤ 1 →
            0 < v'.value ∧ v'.value ≤ 1 ∧ v'.value ≤ v.value)) :=
  ⟨by with_unfolding_all rfl,
   of_decide_eq_true (by with_unfolding_all rfl),
   of_decide_eq_true (by with_unfolding_all rfl),
   c8_vote_values stateOneSurplus candA (by with_unfolding_all rfl)
     (of_decide_eq_true (by with_unfolding_all rfl))
     (of_decide_eq_true (by with_unfolding_all rfl))⟩

/-- Claim C9: the winners query signals an error exactly when the state
is non-terminal (neither enough provisional winners nor few enough
candidates), and any state in which a construction-time election run
ends is terminal, so the query never errors after construction; the
query is a pure function of the state, so repeated calls agree. -/
theorem c9_get_winners :
    (∀ s : WrightSystem, s.get_winners = none ↔ s.check_all_vacancies_filled = false) ∧
    (∀ (rand : Nat → Nat) (fuel : Nat) (s s' : WrightSystem),
      s.electFuel rand fuel = some s' → (s'.get_winners).isSome = true) := by
  constructor
  · intro s
    constructor
    · intro h
      cases hb : s.check_all_vacancies_filled with
      | false => rfl
      | true =>
        have := filled_get_winners_isSome s hb
        rw [h] at this
        simp at this
    · intro h
      unfold WrightSystem.check_all_vacancies_filled at h
      rw [Bool.or_eq_false_iff] at h
      obtain ⟨h1, h2⟩ := h
      rw [decide_eq_false_iff_not] at h1 h2
      unfold WrightSystem.get_winners
      rw [if_neg h1, if_neg h2]
  · intro rand fuel s s' h
    exact filled_get_winners_isSome s' (electFuel_some_filled rand fuel s s' h)

/-- Witness for C9: a one-candidate, one-vacancy election is terminal at
construction; its completed run yields a state whose winners query
succeeds, and the error criterion is exactly non-terminality. -/
theorem c9_witness :
    ((initState 1 [(1, ["A"])]).electFuel (fun _ => 0) 0 =
      some (initState 1 [(1, ["A"])])) ∧
    (((initState 1 [(1, ["A"])]).get_winners).isSome = true) ∧
    ((initState 1 [(1, ["A"])]).get_winners = none ↔
      (initState 1 [(1, ["A"])]).check_all_vacancies_filled = false) :=
  ⟨by with_unfolding_all rfl,
   c9_get_winners.2 (fun _ => 0) 0 (initState 1 [(1, ["A"])]) (initState 1 [(1, ["A"])])
     (by with_unfolding_all rfl),
   c9_get_winners.1 (initState 1 [(1, ["A"])])⟩

/-- Claim C10: a next preference computed while excluding a candidate set
is never in that set, so no surplus transfer allocates a vote to a
provisional winner: across one surplus-distribution step every candidate
listed as a provisional winner keeps its vote set unchanged (and its
total, except for the chosen candidate's clamp to the quota). -/
theorem c10_winners_receive_nothing :
    (∀ (v : Vote) (excluding : List CName) (n : CName),
      v.get_preference_excluding excluding = some n → n ∉ excluding) ∧
    (∀ (s : WrightSystem) (cand : Candidate), s.surplus_selection = some cand →
      List.Forall₂ (fun c c' => c'.name = c.name ∧
        (c.name ∈ s.provisional_winners →
          c'.votes = c.votes ∧
            (c'.total_value = c.total_value ∨ c'.total_value = s.quota)))
        s.candidates (s.calc_and_distribute_surplus).candidates) := by
  constructor
  · exact get_preference_excluding_not_mem
  · intro s cand hsel
    obtain ⟨-, -, -, H, hcand, hname, -, hwin⟩ := calc_surplus_state s cand hsel
    rw [hcand, List.forall₂_map_right_iff, List.forall₂_same]
    intro c hc
    exact ⟨hname c, fun hw => hwin c hw⟩

/-- Witness for C10: a concrete excluded-preference lookup skips the
winner A, and across A's surplus step in the one-surplus election the
provisional winner A keeps its vote set. -/
theorem c10_witness :
    (Vote.get_preference_excluding ⟨7, ["A", "B"], 1⟩ ["A"] = some "B" ∧
      "B" ∉ ["A"]) ∧
    (stateOneSurplus.surplus_selection = some candA ∧
      List.Forall₂ (fun c c' => c'.name = c.name ∧
        (c.name ∈ stateOneSurplus.provisional_winners →
          c'.votes = c.votes ∧
            (c'.total_value = c.total_value ∨
              c'.total_value = stateOneSurplus.quota)))
        stateOneSurplus.candidates
        (stateOneSurplus.calc_and_distribute_surplus).candidates) :=
  ⟨⟨by with_unfolding_all rfl,
    c10_winners_receive_nothing.1 ⟨7, ["A", "B"], 1⟩ ["A"] "B"
      (by with_unfolding_all rfl)⟩,
   ⟨by with_unfolding_all rfl,
    c10_winners_receive_nothing.2 stateOneSurplus candA (by with_unfolding_all rfl)⟩⟩
